import Mathlib

/-!
Shallow embedding of the notebook
`Week 3/Q-Learning and Value Iteration/.ipynb_checkpoints/Template-checkpoint.ipynb`
(classes `ExampleEnvironment`, `QLearningAgent` and the function `value_iteration`).

Modelling conventions:
* Python/numpy floats are modelled as rationals.
* Each `numpy.random.RandomState` is modelled as an infinite stream
  `g : Nat -> Rat` of independent uniform draws in `[0,1)` together with a
  position counter stored in the component; one primitive generator call
  (`rand`, `randint`, `choice`) consumes one draw.
* Fallible operations (Python IndexError / TypeError, numpy ValueError)
  return `Option`/`none`.
-/

/-- Python list indexing with an integer index: a non-negative index `i`
reads position `i`; a negative index reads position `len + i`; anything
still out of range raises IndexError, modelled as `none`. -/
def pyGet? (l : List α) (i : ℤ) : Option α :=
  if 0 ≤ i then l.get? i.toNat
  else if 0 ≤ i + l.length then l.get? (i + l.length).toNat
  else none

/-- Model of `RandomState.randint(n)` (and of the index draw inside
`choice` without probabilities): a uniform draw `u` in `[0,1)` is mapped to
the integer `floor (u * n)`. -/
def pyRandint (n : ℕ) (u : ℚ) : ℕ :=
  (⌊u * n⌋).toNat

/-- Running sums of a list, as computed by `numpy.cumsum`. -/
def cumsumGo (acc : ℚ) : List ℚ → List ℚ
  | [] => []
  | x :: r => (acc + x) :: cumsumGo (acc + x) r

/-- `numpy.cumsum`. -/
def cumsum (l : List ℚ) : List ℚ := cumsumGo 0 l

/-- Model of `RandomState.choice(a, p)`: numpy first checks that the
probabilities sum to 1 (within a float tolerance; exact over the rationals
used here) and raises ValueError otherwise, then normalises the cumulated
distribution by its last entry (the identity under the exact guard, hence
omitted), draws `u` uniform in `[0,1)`, takes the first index whose
cumulated probability strictly exceeds `u` (`searchsorted` with side
right, which on the sorted cdf is the number of cdf entries `≤ u`) and
reads the population at that index (`take` raises for an out-of-range
index, modelled by `get?`). -/
def npChoiceP (a : List ℕ) (p : List ℚ) (u : ℚ) : Option ℕ :=
  if p.sum = 1 then a.get? ((cumsum p).countP (fun c => decide (c ≤ u)))
  else none

/-- Model of `RandomState.choice(a)` for a plain integer list `a`:
a uniform index below `a.length`. Matches `a[randint(len(a))]`; the
default of `getD` is unreachable for draws in `[0,1)`. -/
def npChoiceList (a : List ℕ) (u : ℚ) : ℕ :=
  a.getD (pyRandint a.length u) 0

/-- `self.grid = [0, 1, 2, 3]` of `ExampleEnvironment.__init__`. -/
def envGrid : List ℕ := [0, 1, 2, 3]

/-- `self.rewards` of `ExampleEnvironment.__init__`. -/
def envRewards : List (List ℚ) :=
  [[0, 0, 2],
   [0, 1, 0],
   [1, 1, 0],
   [2, 3/2, 3]]

/-- `self.tran_matrix` of `ExampleEnvironment.__init__`. -/
def envTranMatrix : List (List ℚ) :=
  [[1/2, 1/2, 0, 0],
   [1/4, 1/4, 1/2, 0],
   [0, 1/4, 1/4, 1/2],
   [0, 0, 1/4, 3/4]]

/-- The mutable state of an `ExampleEnvironment` instance.  The random
generator is the pair of an external draw stream (passed to the
operations) and the position `genPos`; `cur` is `cur_loc`
(`None` before `start`). -/
structure Env where
  grid : List ℕ
  rewards : List (List ℚ)
  tranMatrix : List (List ℚ)
  genPos : ℕ
  cur : Option ℕ
deriving DecidableEq, Repr

/-- `ExampleEnvironment.__init__`: only field assignments; the matrices are
fixed literals, `cur_loc` is `None`, the generator starts at position 0. -/
def envInit : Env :=
  { grid := envGrid
    rewards := envRewards
    tranMatrix := envTranMatrix
    genPos := 0
    cur := none }

/-- `ExampleEnvironment.__init__` applies no validation to any transition
row: the constructor body consists of field assignments only, so every row
is accepted.  This function records the per-row validation that
construction performs (none). -/
def initRowAccepts (_row : List ℚ) : Bool := true

/-- `ExampleEnvironment.start`: draw an initial state uniformly from
`grid`, store it in `cur_loc` and return it. -/
def envStart (g : ℕ → ℚ) (e : Env) : ℕ × Env :=
  let s := e.grid.getD (pyRandint e.grid.length (g e.genPos)) 0
  (s, { e with cur := some s, genPos := e.genPos + 1 })

/-- `ExampleEnvironment.step`: look up
`next_reward = rewards[cur_loc][action]` (Python list indexing, so the
action may be negative), sample `next_state` from the transition row of
the current state, store `next_state` in `cur_loc` and return the pair.
A `None` current location (step before start) or an out-of-range index
is a Python error, modelled as `none`. -/
def envStep (g : ℕ → ℚ) (e : Env) (action : ℤ) : Option ((ℕ × ℚ) × Env) :=
  e.cur.bind fun s =>
    (e.rewards.get? s).bind fun row =>
      (pyGet? row action).bind fun reward =>
        (e.tranMatrix.get? s).bind fun prow =>
          (npChoiceP e.grid prow (g e.genPos)).map fun next =>
            ((next, reward), { e with cur := some next, genPos := e.genPos + 1 })

/-- `numpy.max` on a list (the notebook only applies it to non-empty
lists; numpy raises on an empty one, here the unused default is 0). -/
def lMax : List ℚ → ℚ
  | [] => 0
  | v :: r => r.foldl max v

/-- Entry `(s, t)` of `env.tran_matrix` as read by `value_iteration`
(out-of-range entries default to 0; they are never read by the code). -/
def trP (s t : ℕ) : ℚ := (envTranMatrix.getD s []).getD t 0

/-- Entry `(s, a)` of `env.rewards` as read by `value_iteration`. -/
def rwR (s a : ℕ) : ℚ := (envRewards.getD s []).getD a 0

/-- One entry of the `vals` list of `value_iteration`:
`np.sum(env.tran_matrix[s] * (env.rewards[s][a] + discount * s_vals))`,
the elementwise product summed over the 4 successor states. -/
def viActionVal (discount : ℚ) (V : ℕ → ℚ) (s a : ℕ) : ℚ :=
  ((List.range 4).map fun t => trP s t * (rwR s a + discount * V t)).sum

/-- `np.max(vals)` over the three actions `list(np.arange(3))`:
the new value assigned to `s_vals[s]` inside a sweep. -/
def viStateVal (discount : ℚ) (V : ℕ → ℚ) (s : ℕ) : ℚ :=
  lMax ((List.range 3).map (viActionVal discount V s))

/-- The in-place assignment `s_vals[s] = np.max(vals)`. -/
def viAssign (discount : ℚ) (V : ℕ → ℚ) (s : ℕ) : ℕ → ℚ :=
  fun t => if t = s then viStateVal discount V s else V t

/-- The in-place assignments of one sweep of `value_iteration` restricted
to a prefix `states` of the sweep order `env.grid = [0, 1, 2, 3]`. -/
def viSweepFrom (discount : ℚ) (V : ℕ → ℚ) (states : List ℕ) : ℕ → ℚ :=
  states.foldl (viAssign discount) V

/-- One full in-place sweep `for s in env.grid` of `value_iteration`. -/
def viSweep (discount : ℚ) (V : ℕ → ℚ) : ℕ → ℚ :=
  viSweepFrom discount V (List.range 4)

/-- The table `s_vals` after `k` sweeps of `value_iteration`, starting
from `np.zeros(4)`.  The `while delta > theta` loop of the source runs
some number of such sweeps; the `delta` bookkeeping never changes the
values, only when the loop stops. -/
def viIter (discount : ℚ) : ℕ → (ℕ → ℚ)
  | 0 => fun _ => 0
  | k + 1 => viSweep discount (viIter discount k)

/-- The loop state of `QLearningAgent.argmax`: the running maximum `top`
(initially the float `-inf`, modelled by `none`) and the list `ties`. -/
structure ArgmaxSt where
  top : Option ℚ
  ties : List ℕ
deriving DecidableEq, Repr

/-- The test `q_values[i] > top` (against `-inf` it always succeeds). -/
def gtTop : Option ℚ → ℚ → Bool
  | none, _ => true
  | some t, v => decide (t < v)

/-- The test `q_values[i] == top` (against `-inf` it always fails). -/
def eqTop : Option ℚ → ℚ → Bool
  | none, _ => false
  | some t, v => decide (v = t)

/-- One iteration of the `for i in range(len(q_values))` loop of
`QLearningAgent.argmax`: on a strictly larger value reset `top` and
`ties`, then on equality with the (possibly new) `top` append `i`. -/
def scanStep (st : ArgmaxSt) (i : ℕ) (v : ℚ) : ArgmaxSt :=
  let st1 := if gtTop st.top v then { top := some v, ties := ([] : List ℕ) } else st
  if eqTop st1.top v then { top := st1.top, ties := st1.ties ++ [i] } else st1

/-- The scan loop of `QLearningAgent.argmax` over the remaining values,
`i` being the index of the first of them. -/
def argmaxGo : List ℚ → ℕ → ArgmaxSt → ArgmaxSt
  | [], _, st => st
  | v :: r, i, st => argmaxGo r (i + 1) (scanStep st i v)

/-- The complete scan of `QLearningAgent.argmax` over `q_values`. -/
def argmaxScan (q : List ℚ) : ArgmaxSt :=
  argmaxGo q 0 { top := none, ties := [] }

/-- `QLearningAgent.argmax`: scan, then
`self.rand_generator.choice(ties)` with one uniform draw `u`. -/
def argmaxSelect (q : List ℚ) (u : ℚ) : ℕ :=
  npChoiceList (argmaxScan q).ties u

/-- The mutable state of a `QLearningAgent` instance (`num_actions = 3`
and `num_states = 4` are literals of `__init__`).  As for the
environment, the random generator is an external draw stream plus the
position `genPos`. -/
structure Agent where
  discount : ℚ
  stepSize : ℚ
  epsilon : ℚ
  delta : ℚ
  q : ℕ → ℕ → ℚ
  prevState : Option ℕ
  prevAction : Option ℕ
  genPos : ℕ

/-- `self.q[state][:]`: the row of the three action values of `state`. -/
def qRow (A : Agent) (state : ℕ) : List ℚ :=
  [A.q state 0, A.q state 1, A.q state 2]

/-- The epsilon-greedy choice shared verbatim by `QLearningAgent.start`
and `QLearningAgent.step`: one `rand()` draw for the epsilon test, then
either `randint(self.num_actions)` or `self.argmax(current_q)`; either
branch consumes exactly one further draw. -/
def epsGreedy (g : ℕ → ℚ) (A : Agent) (state : ℕ) : ℕ :=
  if g A.genPos < A.epsilon then pyRandint 3 (g (A.genPos + 1))
  else argmaxSelect (qRow A state) (g (A.genPos + 1))

/-- The update loop of `QLearningAgent.step`: starting from the literal
`-1e8`, take the maximum over the three candidate actions `act` of
`cur_val + step_size * (reward + discount * q[state, act] - cur_val)`. -/
def qStepNewVal (stepSize discount cur reward : ℚ) (qrow : ℕ → ℚ) : ℚ :=
  (List.range 3).foldl
    (fun m act => max m (cur + stepSize * (reward + discount * qrow act - cur)))
    (-(10 ^ 8))

/-- Modelled from the spec: the update rule
`Q(prevState, prevAction) <- cur + alpha * (reward + gamma * m - cur)`
where `m` is the maximum action value at the new state.  Spec-side
definition, to be compared with the source loop `qStepNewVal`. -/
def specQUpdate (stepSize discount cur reward m : ℚ) : ℚ :=
  cur + stepSize * (reward + discount * m - cur)

/-- `QLearningAgent.start`: epsilon-greedy action, record
`(state, action)` in the transition memory, return the action. -/
def agentStart (g : ℕ → ℚ) (state : ℕ) (A : Agent) : ℕ × Agent :=
  let action := epsGreedy g A state
  (action,
   { A with prevState := some state, prevAction := some action,
            genPos := A.genPos + 2 })

/-- `QLearningAgent.step`: epsilon-greedy action at `state`, then the
update of the single entry `q[prev_state, prev_action]` and the local
convergence test `abs(new_val - cur_val) < self.delta`.  The source never
assigns `prev_state`/`prev_action` here.  An absent memory makes the
Python subscript `q[None, None]` ill-typed for the update, modelled as
failure. -/
def agentStep (g : ℕ → ℚ) (state : ℕ) (reward : ℚ) (A : Agent) :
    Option ((ℕ × Bool) × Agent) :=
  let action := epsGreedy g A state
  A.prevState.bind fun ps =>
    A.prevAction.map fun pa =>
      let cur := A.q ps pa
      let newVal := qStepNewVal A.stepSize A.discount cur reward (A.q state)
      ((action, decide (|newVal - cur| < A.delta)),
       { A with
         q := fun s b => if s = ps ∧ b = pa then newVal else A.q s b,
         genPos := A.genPos + 2 })

/-- The indices (relative to the head) of the entries of a list equal to
`m`, in increasing order.  Specification-side characterisation used to
state what the `argmax` scan accumulates in `ties`. -/
def idxEq0 : List ℚ → ℚ → List ℕ
  | [], _ => []
  | v :: r, m => (if v = m then [0] else []) ++ (idxEq0 r m).map (· + 1)

/-- A concrete agent state used for instantiations: the hyperparameters of
the experiment cell (`discount 0.9, step_size 0.5, epsilon 0.5,
delta 1e-3`), a zero Q-table, transition memory `(2, 1)` and generator
position 0. -/
def agentA : Agent :=
  { discount := 9/10
    stepSize := 1/2
    epsilon := 1/2
    delta := 1/1000
    q := fun _ _ => 0
    prevState := some 2
    prevAction := some 1
    genPos := 0 }

/-! ## Supporting lemmas -/

lemma cdf_count_le_three (a b c u : ℚ) (hu : u < 1) :
    List.countP (fun x => decide (x ≤ u)) [a, b, c, (1 : ℚ)] ≤ 3 := by
  have h1 : decide ((1 : ℚ) ≤ u) = false := decide_eq_false (not_le.mpr hu)
  simp only [List.countP_cons, List.countP_nil, h1]
  split_ifs <;> simp_all

lemma envGrid_get_le (j : ℕ) (hj : j ≤ 3) : envGrid.get? j = some j := by
  interval_cases j <;> rfl

lemma npChoiceP_envRow (row : List ℚ) (c1 c2 c3 u : ℚ)
    (hsum : row.sum = 1) (hcum : cumsum row = [c1, c2, c3, 1]) (hu : u < 1) :
    npChoiceP envGrid row u =
      some ((cumsum row).countP (fun c => decide (c ≤ u))) ∧
    (cumsum row).countP (fun c => decide (c ≤ u)) ≤ 3 := by
  have hle : (cumsum row).countP (fun c => decide (c ≤ u)) ≤ 3 := by
    rw [hcum]; exact cdf_count_le_three _ _ _ _ hu
  refine ⟨?_, hle⟩
  unfold npChoiceP
  rw [if_pos hsum, envGrid_get_le _ hle]

lemma npChoiceP_mem {a : List ℕ} {p : List ℚ} {u : ℚ} {n : ℕ}
    (h : npChoiceP a p u = some n) : n ∈ a := by
  unfold npChoiceP at h
  split at h
  · exact List.get?_mem h
  · exact absurd h (by simp)

lemma npChoiceP_row_eval (s : ℕ) (hs : s < 4) (u : ℚ) (hu : u < 1) :
    ∃ idx : ℕ, idx ≤ 3 ∧
      npChoiceP envGrid (envTranMatrix.getD s []) u = some idx := by
  interval_cases s
  · obtain ⟨h1, h2⟩ := npChoiceP_envRow [1/2, 1/2, 0, 0] (1/2) 1 1 u
      (by norm_num) (by norm_num [cumsum, cumsumGo]) hu
    exact ⟨_, h2, h1⟩
  · obtain ⟨h1, h2⟩ := npChoiceP_envRow [1/4, 1/4, 1/2, 0] (1/4) (1/2) 1 u
      (by norm_num) (by norm_num [cumsum, cumsumGo]) hu
    exact ⟨_, h2, h1⟩
  · obtain ⟨h1, h2⟩ := npChoiceP_envRow [0, 1/4, 1/4, 1/2] 0 (1/4) (1/2) u
      (by norm_num) (by norm_num [cumsum, cumsumGo]) hu
    exact ⟨_, h2, h1⟩
  · obtain ⟨h1, h2⟩ := npChoiceP_envRow [0, 0, 1/4, 3/4] 0 0 (1/4) u
      (by norm_num) (by norm_num [cumsum, cumsumGo]) hu
    exact ⟨_, h2, h1⟩

lemma envStep_eval (g : ℕ → ℚ) (p s : ℕ) (a : ℤ) (hs : s < 4)
    (ha0 : 0 ≤ a) (ha3 : a < 3) (hu : g p < 1) :
    ∃ idx : ℕ, idx ≤ 3 ∧
      npChoiceP envGrid (envTranMatrix.getD s []) (g p) = some idx ∧
      envStep g { envInit with cur := some s, genPos := p } a =
        some ((idx, (envRewards.getD s []).getD a.toNat 0),
              { envInit with cur := some idx, genPos := p + 1 }) := by
  obtain ⟨idx, hle, hnp⟩ := npChoiceP_row_eval s hs (g p) hu
  refine ⟨idx, hle, hnp, ?_⟩
  interval_cases s <;> interval_cases a <;>
    simp_all [envStep, envInit, pyGet?, envRewards, envTranMatrix]

/-! ## Claims about the environment -/

/-- C4: for every started environment and valid action, `step` returns the
reward `rewards[s][a]` of the pre-call current state `s`, a next state
sampled (by the `choice` model) from the transition row of `s`, and leaves
the current state equal to the returned next state. -/
theorem claimC4 (g : ℕ → ℚ) (p s : ℕ) (a : ℤ) (hs : s < 4)
    (ha0 : 0 ≤ a) (ha3 : a < 3) (hu : g p < 1) :
    ∃ next : ℕ,
      npChoiceP envGrid (envTranMatrix.getD s []) (g p) = some next ∧
      envStep g { envInit with cur := some s, genPos := p } a =
        some ((next, (envRewards.getD s []).getD a.toNat 0),
              { envInit with cur := some next, genPos := p + 1 }) := by
  obtain ⟨idx, _, hnp, hstep⟩ := envStep_eval g p s a hs ha0 ha3 hu
  exact ⟨idx, hnp, hstep⟩

theorem claimC4_witness :
    (0 : ℕ) < 4 ∧ (0 : ℤ) ≤ 1 ∧ (1 : ℤ) < 3 ∧ (fun _ => (0 : ℚ)) 0 < 1 ∧
    ∃ next : ℕ,
      npChoiceP envGrid (envTranMatrix.getD 0 []) ((fun _ => (0 : ℚ)) 0) = some next ∧
      envStep (fun _ => (0 : ℚ)) { envInit with cur := some 0, genPos := 0 } 1 =
        some ((next, (envRewards.getD 0 []).getD (1 : ℤ).toNat 0),
              { envInit with cur := some next, genPos := 0 + 1 }) :=
  ⟨by norm_num, by norm_num, by norm_num, by norm_num,
   claimC4 (fun _ => 0) 0 0 1 (by norm_num) (by norm_num) (by norm_num) (by norm_num)⟩

/-- C6: from identical environment state (same current state, same
generator position and stream), two `step` calls with different valid
actions return the same next state and the same post-call environment;
only the reward may differ. -/
theorem claimC6 (g : ℕ → ℚ) (p s : ℕ) (a1 a2 : ℤ) (hs : s < 4)
    (h10 : 0 ≤ a1) (h13 : a1 < 3) (h20 : 0 ≤ a2) (h23 : a2 < 3)
    (hu : g p < 1) :
    ∃ (next : ℕ) (e2 : Env) (r1 r2 : ℚ),
      envStep g { envInit with cur := some s, genPos := p } a1 =
        some ((next, r1), e2) ∧
      envStep g { envInit with cur := some s, genPos := p } a2 =
        some ((next, r2), e2) := by
  obtain ⟨i1, _, hnp1, h1⟩ := envStep_eval g p s a1 hs h10 h13 hu
  obtain ⟨i2, _, hnp2, h2⟩ := envStep_eval g p s a2 hs h20 h23 hu
  rw [hnp1] at hnp2
  obtain rfl : i1 = i2 := Option.some_inj.mp hnp2
  exact ⟨i1, _, _, _, h1, h2⟩

theorem claimC6_witness :
    (0 : ℕ) < 4 ∧ (0 : ℤ) ≤ 0 ∧ (0 : ℤ) < 3 ∧ (0 : ℤ) ≤ 2 ∧ (2 : ℤ) < 3 ∧
    (fun _ => (0 : ℚ)) 0 < 1 ∧
    ∃ (next : ℕ) (e2 : Env) (r1 r2 : ℚ),
      envStep (fun _ => (0 : ℚ)) { envInit with cur := some 0, genPos := 0 } 0 =
        some ((next, r1), e2) ∧
      envStep (fun _ => (0 : ℚ)) { envInit with cur := some 0, genPos := 0 } 2 =
        some ((next, r2), e2) :=
  ⟨by norm_num, by norm_num, by norm_num, by norm_num, by norm_num, by norm_num,
   claimC6 (fun _ => 0) 0 0 0 2 (by norm_num) (by norm_num) (by norm_num)
     (by norm_num) (by norm_num) (by norm_num)⟩

/-- C8, counterexample: the action `-1` is outside `{0, 1, 2}`, yet
`step(-1)` on a started environment does not fail: Python negative
indexing reads `rewards[0][-1] = 2` and the call succeeds. -/
theorem claimC8_counterexample :
    ¬ (0 ≤ (-1 : ℤ) ∧ (-1 : ℤ) < 3) ∧
    envStep (fun _ => 0) { envInit with cur := some 0, genPos := 0 } (-1) =
      some ((0, 2), { envInit with cur := some 0, genPos := 1 }) := by
  refine ⟨by norm_num, ?_⟩
  norm_num [envStep, envInit, envGrid, envRewards, envTranMatrix, pyGet?,
    npChoiceP, cumsum, cumsumGo, List.countP_cons, List.countP_nil, Int.toNat]

/-- C8, amended: an integer action at distance `numActions` or more from
the valid range (`3 ≤ a` or `a < -3`) makes `step` fail (a Python
IndexError from the reward lookup; the code has no distinct InvalidAction
error), while actions in `{-3, -2, -1}` are silently accepted by Python
negative indexing. -/
theorem claimC8_amended (g : ℕ → ℚ) (p s : ℕ) (a : ℤ) (hs : s < 4)
    (ha : 3 ≤ a ∨ a < -3) :
    envStep g { envInit with cur := some s, genPos := p } a = none := by
  obtain ⟨row, hr, hlen⟩ : ∃ row, envRewards[s]? = some row ∧ row.length = 3 := by
    interval_cases s <;> exact ⟨_, rfl, rfl⟩
  have hpg : pyGet? row a = none := by
    unfold pyGet?
    rcases ha with h | h
    · rw [if_pos (by omega)]
      refine List.get?_eq_none.mpr ?_
      rw [hlen]
      omega
    · rw [if_neg (by omega), if_neg (by rw [hlen]; omega)]
  simp [envStep, envInit, hr, hpg]

theorem claimC8_witness :
    (0 : ℕ) < 4 ∧ (3 ≤ (5 : ℤ) ∨ (5 : ℤ) < -3) ∧
    envStep (fun _ => 0) { envInit with cur := some 0, genPos := 0 } 5 = none :=
  ⟨by norm_num, by norm_num,
   claimC8_amended (fun _ => 0) 0 0 5 (by norm_num) (by norm_num)⟩

/-- C9, counterexample: the row `[0, 0, 0, 0]` does not sum to 1, yet the
per-row validation that `ExampleEnvironment.__init__` performs accepts it:
construction applies no check at all, so no malformed row is rejected at
construction time. -/
theorem claimC9_counterexample :
    initRowAccepts [0, 0, 0, 0] = true ∧ ([0, 0, 0, 0] : List ℚ).sum ≠ 1 :=
  ⟨rfl, by norm_num⟩

/-- C9, amended: construction performs no transition-row validation
(every row is accepted); instead the transition matrix is a fixed literal
each of whose rows sums exactly to 1, so a malformed row can never occur. -/
theorem claimC9_amended :
    (envTranMatrix.all fun row => decide (row.sum = 1)) = true ∧
    ∀ row, initRowAccepts row = true := by
  refine ⟨?_, fun _ => rfl⟩
  norm_num [envTranMatrix]

/-- C10: after `start` the current state is a member of the fixed state
set `grid = [0, 1, 2, 3]` and equals the returned state, and every
successful `step` returns a next state in that set and stores it as the
current state. -/
theorem claimC10 (g : ℕ → ℚ) (e : Env) (hg : e.grid = envGrid)
    (h0 : 0 ≤ g e.genPos) (h1 : g e.genPos < 1) :
    ((envStart g e).1 ∈ envGrid ∧ (envStart g e).2.cur = some (envStart g e).1) ∧
    (∀ (a : ℤ) (n : ℕ) (r : ℚ) (e2 : Env),
      envStep g e a = some ((n, r), e2) → n ∈ envGrid ∧ e2.cur = some n) := by
  constructor
  · have hj : pyRandint envGrid.length (g e.genPos) ≤ 3 := by
      unfold pyRandint
      have hlen : ((envGrid.length : ℕ) : ℚ) = 4 := by norm_num [envGrid]
      have h4 : g e.genPos * (envGrid.length : ℚ) < 4 := by
        rw [hlen]; nlinarith
      have hfl : ⌊g e.genPos * (envGrid.length : ℚ)⌋ < 4 :=
        Int.floor_lt.mpr (by exact_mod_cast h4)
      omega
    have hmem : ∀ j : ℕ, j ≤ 3 → envGrid.getD j 0 ∈ envGrid := by
      intro j hjj; interval_cases j <;> decide
    refine ⟨?_, rfl⟩
    show e.grid.getD (pyRandint e.grid.length (g e.genPos)) 0 ∈ envGrid
    rw [hg]
    exact hmem _ hj
  · intro a n r e2 h
    unfold envStep at h
    rcases Option.bind_eq_some.mp h with ⟨s, hs1, h⟩
    rcases Option.bind_eq_some.mp h with ⟨row, hrow, h⟩
    rcases Option.bind_eq_some.mp h with ⟨rwd, hrwd, h⟩
    rcases Option.bind_eq_some.mp h with ⟨prow, hprow, h⟩
    rcases Option.map_eq_some'.mp h with ⟨next, hnp, heq⟩
    have hn : next = n := congrArg (fun x => x.1.1) heq
    have he2 : e2 = { e with cur := some next, genPos := e.genPos + 1 } :=
      (congrArg Prod.snd heq).symm
    subst hn
    constructor
    · have := npChoiceP_mem hnp
      rwa [hg] at this
    · rw [he2]

theorem claimC10_witness :
    envInit.grid = envGrid ∧ (0 : ℚ) ≤ 0 ∧ (0 : ℚ) < 1 ∧
    ((envStart (fun _ => 0) envInit).1 ∈ envGrid ∧
     (envStart (fun _ => 0) envInit).2.cur =
       some (envStart (fun _ => 0) envInit).1) :=
  ⟨rfl, le_refl 0, by norm_num,
   (claimC10 (fun _ => 0) envInit rfl (le_refl 0) (by norm_num)).1⟩

/-! ## Claims about the Q-learning update -/

/-- C1, counterexample: with `step_size 1`, `discount 9/10`, current value
0, reward `-3e8` and a zero Q-row, every candidate in the update loop is
below the loop seed `-1e8`, so the code writes `-1e8` while the spec
formula gives `-3e8`. -/
theorem claimC1_counterexample :
    qStepNewVal 1 (9/10) 0 (-(3 * 10 ^ 8)) (fun _ => 0) = -(10 ^ 8) ∧
    specQUpdate 1 (9/10) 0 (-(3 * 10 ^ 8)) (lMax [(0 : ℚ), 0, 0]) = -(3 * 10 ^ 8) ∧
    (-(10 ^ 8) : ℚ) ≠ -(3 * 10 ^ 8) := by
  refine ⟨?_, ?_, by norm_num⟩
  · norm_num [qStepNewVal, lMax, List.range_succ]
  · norm_num [specQUpdate, lMax]

/-- C1, amended: for `step_size > 0` and `discount ≥ 0` the value written
by the update loop equals the maximum of the loop seed `-1e8` and the
spec formula `cur + α * (reward + γ * max_act Q[state, act] − cur)`; the
two agree exactly when the spec formula is at least `-1e8`. -/
theorem claimC1_amended (α γ cur r : ℚ) (qrow : ℕ → ℚ)
    (hα : 0 < α) (hγ : 0 ≤ γ) :
    qStepNewVal α γ cur r qrow =
      max (-(10 ^ 8)) (specQUpdate α γ cur r (lMax [qrow 0, qrow 1, qrow 2])) := by
  have hmono : ∀ x y : ℚ, x ≤ y →
      cur + α * (r + γ * x - cur) ≤ cur + α * (r + γ * y - cur) := by
    intro x y hxy
    have h1 : γ * x ≤ γ * y := mul_le_mul_of_nonneg_left hxy hγ
    have h2 : r + γ * x - cur ≤ r + γ * y - cur := by linarith
    have h3 := mul_le_mul_of_nonneg_left h2 hα.le
    linarith
  have hfmax : ∀ x y : ℚ,
      cur + α * (r + γ * max x y - cur) =
        max (cur + α * (r + γ * x - cur)) (cur + α * (r + γ * y - cur)) := by
    intro x y
    rcases le_total x y with h | h
    · rw [max_eq_right h, max_eq_right (hmono x y h)]
    · rw [max_eq_left h, max_eq_left (hmono y x h)]
  show (List.range 3).foldl
      (fun m act => max m (cur + α * (r + γ * qrow act - cur))) (-(10 ^ 8)) = _
  have h3 : List.range 3 = [0, 1, 2] := rfl
  rw [h3]
  simp only [List.foldl_cons, List.foldl_nil, specQUpdate, lMax, hfmax]
  simp [max_assoc]

theorem claimC1_witness :
    (0 : ℚ) < 1/2 ∧ (0 : ℚ) ≤ 9/10 ∧
    qStepNewVal (1/2) (9/10) 1 2 (fun _ => 0) =
      max (-(10 ^ 8)) (specQUpdate (1/2) (9/10) 1 2 (lMax [(0 : ℚ), 0, 0])) :=
  ⟨by norm_num, by norm_num,
   claimC1_amended (1/2) (9/10) 1 2 (fun _ => 0) (by norm_num) (by norm_num)⟩

/-- C3: when the transition memory is set, `step` succeeds and its
convergence flag is true exactly when the absolute difference between the
value just written to `Q[prevState, prevAction]` and that entry's
pre-update value is below the configured `delta`; the test involves no
other Q entry. -/
theorem claimC3 (g : ℕ → ℚ) (A : Agent) (state : ℕ) (r : ℚ) (ps pa : ℕ)
    (hps : A.prevState = some ps) (hpa : A.prevAction = some pa) :
    ∃ (act : ℕ) (conv : Bool) (A2 : Agent),
      agentStep g state r A = some ((act, conv), A2) ∧
      (conv = true ↔ |A2.q ps pa - A.q ps pa| < A.delta) := by
  refine ⟨epsGreedy g A state,
    decide (|qStepNewVal A.stepSize A.discount (A.q ps pa) r (A.q state)
              - A.q ps pa| < A.delta),
    { A with
      q := fun s b =>
        if s = ps ∧ b = pa then
          qStepNewVal A.stepSize A.discount (A.q ps pa) r (A.q state)
        else A.q s b,
      genPos := A.genPos + 2 }, ?_, ?_⟩
  · simp [agentStep, hps, hpa]
  · simp

theorem claimC3_witness :
    agentA.prevState = some 2 ∧ agentA.prevAction = some 1 ∧
    ∃ (act : ℕ) (conv : Bool) (A2 : Agent),
      agentStep (fun _ => 0) 0 1 agentA = some ((act, conv), A2) ∧
      (conv = true ↔ |A2.q 2 1 - agentA.q 2 1| < agentA.delta) :=
  ⟨rfl, rfl, claimC3 (fun _ => 0) agentA 0 1 2 1 rfl rfl⟩

/-- C7: evaluation of `step` at a concrete agent whose memory records
`(2, 1)`.  Called with the new state 0, the source's `step` leaves
`prev_state`/`prev_action` untouched at `(2, 1)` — it never records the
new `(state, action)` pair, so the next `step` again updates `Q[2, 1]`
instead of the entry for the transition that just happened. -/
theorem claimC7_bug :
    (agentStep (fun _ => 0) 0 1 agentA).map
      (fun o => (o.2.prevState, o.2.prevAction)) = some (some 2, some 1) ∧
    (some 2 : Option ℕ) ≠ some 0 := by
  exact ⟨rfl, by simp⟩

/-! ## The argmax scan -/

lemma scanStep_gt {t v : ℚ} (h : t < v) (ts : List ℕ) (i : ℕ) :
    scanStep ⟨some t, ts⟩ i v = ⟨some v, [i]⟩ := by
  simp [scanStep, gtTop, eqTop, h]

lemma scanStep_eq {t v : ℚ} (h : v = t) (ts : List ℕ) (i : ℕ) :
    scanStep ⟨some t, ts⟩ i v = ⟨some t, ts ++ [i]⟩ := by
  subst h
  simp [scanStep, gtTop, eqTop]

lemma scanStep_lt {t v : ℚ} (h : v < t) (ts : List ℕ) (i : ℕ) :
    scanStep ⟨some t, ts⟩ i v = ⟨some t, ts⟩ := by
  simp [scanStep, gtTop, eqTop, not_lt.mpr h.le, h.ne]

lemma foldl_max_le_self (r : List ℚ) : ∀ t : ℚ, t ≤ r.foldl max t := by
  induction r with
  | nil => intro t; exact le_refl t
  | cons v r ih => intro t; exact le_trans (le_max_left t v) (ih (max t v))

lemma foldl_max_mem (r : List ℚ) : ∀ t, r.foldl max t = t ∨ r.foldl max t ∈ r := by
  induction r with
  | nil => intro t; exact Or.inl rfl
  | cons v r ih =>
    intro t
    rcases ih (max t v) with h | h
    · rcases max_choice t v with hm | hm
      · exact Or.inl (by rw [List.foldl_cons, h, hm])
      · refine Or.inr ?_
        rw [List.foldl_cons, h, hm]
        exact List.mem_cons_self v r
    · exact Or.inr (List.mem_cons_of_mem v (by rwa [List.foldl_cons]))

lemma mem_le_foldl_max (r : List ℚ) : ∀ t, ∀ x ∈ r, x ≤ r.foldl max t := by
  induction r with
  | nil => intro t x hx; cases hx
  | cons v r ih =>
    intro t x hx
    rcases List.mem_cons.mp hx with rfl | hx
    · exact le_trans (le_max_right t x) (foldl_max_le_self r (max t x))
    · exact ih (max t v) x hx

lemma map_add_one_comp (l : List ℕ) (i : ℕ) :
    (l.map (· + 1)).map (· + i) = l.map (· + (i + 1)) := by
  rw [List.map_map]
  refine List.map_congr_left ?_
  intro x _
  simp [Function.comp]
  omega

lemma argmaxGo_eval (q : List ℚ) : ∀ (t : ℚ) (ts : List ℕ) (i : ℕ),
    argmaxGo q i ⟨some t, ts⟩ =
      ⟨some (q.foldl max t),
       (if q.foldl max t = t then ts else []) ++
         (idxEq0 q (q.foldl max t)).map (· + i)⟩ := by
  induction q with
  | nil =>
    intro t ts i
    simp [argmaxGo, idxEq0]
  | cons v r ih =>
    intro t ts i
    rcases lt_trichotomy t v with h | h | h
    · -- strictly larger value: reset
      rw [argmaxGo, scanStep_gt h, ih]
      have hmtv : max t v = v := max_eq_right h.le
      have hvM : v ≤ r.foldl max v := foldl_max_le_self r v
      have hMt : r.foldl max v ≠ t := fun hEq => absurd (hEq ▸ hvM) (not_le.mpr h)
      simp only [List.foldl_cons, hmtv, idxEq0, if_neg hMt, List.nil_append,
        List.map_append, map_add_one_comp]
      rcases eq_or_ne v (r.foldl max v) with hv | hv
      · rw [if_pos hv.symm, if_pos hv]
        simp
      · rw [if_neg (Ne.symm hv), if_neg hv]
        simp
    · -- equal value: append the index
      subst h
      rw [argmaxGo, scanStep_eq rfl, ih]
      have hmtv : max t t = t := max_self t
      simp only [List.foldl_cons, hmtv, idxEq0, List.map_append, map_add_one_comp]
      rcases eq_or_ne (r.foldl max t) t with hM | hM
      · rw [if_pos hM, if_pos hM, if_pos hM.symm]
        simp
      · rw [if_neg hM, if_neg hM, if_neg (Ne.symm hM)]
        simp
    · -- smaller value: no change
      rw [argmaxGo, scanStep_lt h, ih]
      have hmtv : max t v = t := max_eq_left h.le
      have htM : t ≤ r.foldl max t := foldl_max_le_self r t
      have hvM : v ≠ r.foldl max t := fun hEq => absurd (hEq ▸ h) (not_lt.mpr (hEq ▸ htM))
      simp only [List.foldl_cons, hmtv, idxEq0, if_neg hvM, List.nil_append,
        List.map_append, map_add_one_comp]

lemma argmaxScan_cons (v : ℚ) (r : List ℚ) :
    argmaxScan (v :: r) =
      ⟨some (lMax (v :: r)), idxEq0 (v :: r) (lMax (v :: r))⟩ := by
  have h0 : scanStep ⟨none, []⟩ 0 v = ⟨some v, [0]⟩ := by
    simp [scanStep, gtTop, eqTop]
  show argmaxGo (v :: r) 0 ⟨none, []⟩ = _
  rw [argmaxGo, h0, argmaxGo_eval]
  simp only [lMax, idxEq0]
  rcases eq_or_ne (r.foldl max v) v with hM | hM
  · rw [if_pos hM, if_pos hM.symm]
  · rw [if_neg hM, if_neg (Ne.symm hM)]

lemma filter_map_add_one (l : List ℕ) (p : ℕ → Bool) :
    (l.map (· + 1)).filter p = (l.filter (fun j => p (j + 1))).map (· + 1) := by
  induction l with
  | nil => rfl
  | cons j l ih =>
    by_cases h : p (j + 1) <;> simp [h, ih]

lemma idxEq0_eq_filter (q : List ℚ) (m : ℚ) :
    idxEq0 q m = (List.range q.length).filter (fun j => decide (q.getD j 0 = m)) := by
  induction q with
  | nil => rfl
  | cons v r ih =>
    have hr : List.range (v :: r).length = 0 :: (List.range r.length).map (· + 1) := by
      rw [List.length_cons, List.range_succ_eq_map]
    rw [hr, List.filter_cons, filter_map_add_one]
    simp only [List.getD_cons_zero, List.getD_cons_succ, idxEq0, ih]
    by_cases h : v = m <;> simp [h]

/-- C2: for a non-empty Q-row, the scan of `argmax` ends with `ties`
equal to the increasing list of exactly those indices whose value equals
the maximum of the row; the returned action is the tie at position
`floor (u * k)` for the uniform draw `u` (each of the `k` ties is
selected on an interval of draws of equal length `1/k`, hence uniformly);
and one scan iteration on a strictly larger value resets the tie set to
that single index. -/
theorem claimC2 (q : List ℚ) (hq : q ≠ []) :
    ((argmaxScan q).ties =
      (List.range q.length).filter (fun j => decide (q.getD j 0 = lMax q))) ∧
    (lMax q ∈ q ∧ ∀ v ∈ q, v ≤ lMax q) ∧
    (∀ j : ℕ, ∀ u : ℚ,
      (j : ℚ) ≤ u * (argmaxScan q).ties.length →
      u * (argmaxScan q).ties.length < j + 1 →
      argmaxSelect q u = (argmaxScan q).ties.getD j 0) ∧
    (∀ (st : ArgmaxSt) (i : ℕ) (v : ℚ),
      gtTop st.top v = true → (scanStep st i v).ties = [i]) := by
  obtain ⟨v, r, rfl⟩ : ∃ v r, q = v :: r := by
    cases q with
    | nil => exact absurd rfl hq
    | cons v r => exact ⟨v, r, rfl⟩
  refine ⟨?_, ⟨?_, ?_⟩, ?_, ?_⟩
  · rw [argmaxScan_cons, idxEq0_eq_filter]
  · -- the maximum is attained
    rcases foldl_max_mem r v with h | h
    · rw [lMax, h]; exact List.mem_cons_self v r
    · exact List.mem_cons_of_mem v (by rw [lMax]; exact h)
  · -- the maximum bounds every entry
    intro x hx
    rcases List.mem_cons.mp hx with rfl | hx
    · exact foldl_max_le_self r x
    · exact mem_le_foldl_max r v x hx
  · -- uniform selection among the ties
    intro j u h1 h2
    have hfl : ⌊u * ((argmaxScan (v :: r)).ties.length : ℚ)⌋ = (j : ℤ) := by
      rw [Int.floor_eq_iff]
      constructor
      · exact_mod_cast h1
      · exact_mod_cast h2
    show npChoiceList (argmaxScan (v :: r)).ties u = _
    unfold npChoiceList pyRandint
    rw [hfl]
    simp
  · -- a strictly larger value resets the tie set
    intro st i w h
    simp [scanStep, h, eqTop]

theorem claimC2_witness :
    ([(1 : ℚ)/2, 1, 1] ≠ []) ∧
    (argmaxScan [(1 : ℚ)/2, 1, 1]).ties =
      (List.range ([(1 : ℚ)/2, 1, 1] : List ℚ).length).filter
        (fun j => decide (([(1 : ℚ)/2, 1, 1] : List ℚ).getD j 0 = lMax [(1 : ℚ)/2, 1, 1])) :=
  ⟨by simp, (claimC2 [(1 : ℚ)/2, 1, 1] (by simp)).1⟩

/-! ## Monotonicity of the value-iteration sweeps -/

lemma getD_nonneg_of_forall (row : List ℚ) (h : ∀ x ∈ row, 0 ≤ x) :
    ∀ t : ℕ, 0 ≤ row.getD t 0 := by
  induction row with
  | nil => intro t; simp [List.getD]
  | cons x r ih =>
    intro t
    cases t with
    | zero => simpa using h x (List.mem_cons_self _ _)
    | succ t => simpa using ih (fun y hy => h y (List.mem_cons_of_mem _ hy)) t

lemma getD_getD_nonneg (M : List (List ℚ)) (h : ∀ row ∈ M, ∀ x ∈ row, 0 ≤ x) :
    ∀ s t : ℕ, 0 ≤ (M.getD s []).getD t 0 := by
  induction M with
  | nil => intro s t; simp [List.getD]
  | cons row M ih =>
    intro s t
    cases s with
    | zero =>
      simp only [List.getD_cons_zero]
      exact getD_nonneg_of_forall row (h row (List.mem_cons_self _ _)) t
    | succ s =>
      simp only [List.getD_cons_succ]
      exact ih (fun r hr x hx => h r (List.mem_cons_of_mem _ hr) x hx) s t

lemma trP_nonneg (s t : ℕ) : 0 ≤ trP s t := by
  refine getD_getD_nonneg envTranMatrix ?_ s t
  intro row hrow x hx
  fin_cases hrow <;> fin_cases hx <;> norm_num

lemma rwR_nonneg (s a : ℕ) : 0 ≤ rwR s a := by
  refine getD_getD_nonneg envRewards ?_ s a
  intro row hrow x hx
  fin_cases hrow <;> fin_cases hx <;> norm_num

lemma list_sum_map_le (l : List ℕ) (f h : ℕ → ℚ) (hle : ∀ i ∈ l, f i ≤ h i) :
    (l.map f).sum ≤ (l.map h).sum := by
  induction l with
  | nil => simp
  | cons a l ih =>
    simp only [List.map_cons, List.sum_cons]
    exact add_le_add (hle a (List.mem_cons_self _ _))
      (ih fun i hi => hle i (List.mem_cons_of_mem _ hi))

lemma list_sum_map_nonneg (l : List ℕ) (f : ℕ → ℚ) (hf : ∀ i ∈ l, 0 ≤ f i) :
    0 ≤ (l.map f).sum := by
  induction l with
  | nil => simp
  | cons a l ih =>
    simp only [List.map_cons, List.sum_cons]
    exact add_nonneg (hf a (List.mem_cons_self _ _))
      (ih fun i hi => hf i (List.mem_cons_of_mem _ hi))

lemma viActionVal_mono (γ : ℚ) (hγ : 0 ≤ γ) (V W : ℕ → ℚ)
    (h : ∀ t, V t ≤ W t) (s a : ℕ) :
    viActionVal γ V s a ≤ viActionVal γ W s a := by
  unfold viActionVal
  refine list_sum_map_le _ _ _ ?_
  intro t _
  have h1 : γ * V t ≤ γ * W t := mul_le_mul_of_nonneg_left (h t) hγ
  have h2 : rwR s a + γ * V t ≤ rwR s a + γ * W t := by linarith
  exact mul_le_mul_of_nonneg_left h2 (trP_nonneg s t)

lemma lMax_three (x y z : ℚ) : lMax [x, y, z] = max (max x y) z := rfl

lemma viStateVal_mono (γ : ℚ) (hγ : 0 ≤ γ) (V W : ℕ → ℚ)
    (h : ∀ t, V t ≤ W t) (s : ℕ) :
    viStateVal γ V s ≤ viStateVal γ W s := by
  unfold viStateVal
  have h3 : List.range 3 = [0, 1, 2] := rfl
  rw [h3]
  simp only [List.map_cons, List.map_nil, lMax_three]
  exact max_le_max (max_le_max (viActionVal_mono γ hγ V W h s 0)
    (viActionVal_mono γ hγ V W h s 1)) (viActionVal_mono γ hγ V W h s 2)

lemma viStateVal_zero_nonneg (γ : ℚ) (s : ℕ) :
    0 ≤ viStateVal γ (fun _ => 0) s := by
  have h0 : 0 ≤ viActionVal γ (fun _ => 0) s 0 := by
    unfold viActionVal
    refine list_sum_map_nonneg _ _ ?_
    intro t _
    have : rwR s 0 + γ * (0 : ℚ) = rwR s 0 := by ring
    rw [this]
    exact mul_nonneg (trP_nonneg s t) (rwR_nonneg s 0)
  unfold viStateVal
  have h3 : List.range 3 = [0, 1, 2] := rfl
  rw [h3]
  simp only [List.map_cons, List.map_nil, lMax_three]
  exact le_trans h0 (le_trans (le_max_left _ _) (le_max_left _ _))

lemma viAssign_invariant (γ : ℚ) (hγ : 0 ≤ γ) (V : ℕ → ℚ)
    (hInv : ∀ t, V t ≤ viStateVal γ V t) (s : ℕ) :
    (∀ t, V t ≤ viAssign γ V s t) ∧
    (∀ t, viAssign γ V s t ≤ viStateVal γ (viAssign γ V s) t) := by
  have hVW : ∀ t, V t ≤ viAssign γ V s t := by
    intro t
    unfold viAssign
    by_cases h : t = s
    · subst h; rw [if_pos rfl]; exact hInv t
    · rw [if_neg h]
  refine ⟨hVW, ?_⟩
  intro t
  by_cases h : t = s
  · subst h
    calc viAssign γ V t t = viStateVal γ V t := by unfold viAssign; rw [if_pos rfl]
    _ ≤ viStateVal γ (viAssign γ V t) t := viStateVal_mono γ hγ V _ hVW t
  · calc viAssign γ V s t = V t := by unfold viAssign; rw [if_neg h]
    _ ≤ viStateVal γ V t := hInv t
    _ ≤ viStateVal γ (viAssign γ V s) t := viStateVal_mono γ hγ V _ hVW t

lemma viSweepFrom_invariant (γ : ℚ) (hγ : 0 ≤ γ) (L : List ℕ) :
    ∀ V : ℕ → ℚ, (∀ t, V t ≤ viStateVal γ V t) →
      (∀ t, V t ≤ viSweepFrom γ V L t) ∧
      (∀ t, viSweepFrom γ V L t ≤ viStateVal γ (viSweepFrom γ V L) t) := by
  induction L with
  | nil => intro V hInv; exact ⟨fun t => le_refl _, hInv⟩
  | cons s L ih =>
    intro V hInv
    obtain ⟨h1, h2⟩ := viAssign_invariant γ hγ V hInv s
    obtain ⟨h3, h4⟩ := ih (viAssign γ V s) h2
    exact ⟨fun t => le_trans (h1 t) (h3 t), h4⟩

lemma viIter_invariant (γ : ℚ) (hγ : 0 ≤ γ) :
    ∀ k, ∀ t, viIter γ k t ≤ viStateVal γ (viIter γ k) t := by
  intro k
  induction k with
  | zero => exact fun t => viStateVal_zero_nonneg γ t
  | succ k ih =>
    exact (viSweepFrom_invariant γ hγ (List.range 4) (viIter γ k) ih).2

/-! ## Claim about value iteration -/

/-- C5: with the (non-negative) rewards of the example model and state
values initialised to 0, the in-place sweeps of `value_iteration` never
decrease any state value: successive sweeps are pointwise non-decreasing,
and each single in-place assignment inside a sweep replaces the entry by
a value at least as large as its previous value. -/
theorem claimC5 (γ : ℚ) (hγ : 0 ≤ γ) :
    (∀ k t, viIter γ k t ≤ viIter γ (k + 1) t) ∧
    (∀ k j, j < 4 →
      viSweepFrom γ (viIter γ k) (List.range j) j ≤
        viAssign γ (viSweepFrom γ (viIter γ k) (List.range j)) j j) := by
  constructor
  · intro k t
    exact (viSweepFrom_invariant γ hγ (List.range 4) (viIter γ k)
      (viIter_invariant γ hγ k)).1 t
  · intro k j _
    have hpre := (viSweepFrom_invariant γ hγ (List.range j) (viIter γ k)
      (viIter_invariant γ hγ k)).2
    have hA : viAssign γ (viSweepFrom γ (viIter γ k) (List.range j)) j j =
        viStateVal γ (viSweepFrom γ (viIter γ k) (List.range j)) j := by
      unfold viAssign; rw [if_pos rfl]
    rw [hA]
    exact hpre j

theorem claimC5_witness :
    (0 : ℚ) ≤ 9/10 ∧ viIter (9/10) 1 0 ≤ viIter (9/10) 2 0 :=
  ⟨by norm_num, (claimC5 (9/10) (by norm_num)).1 1 0⟩
